import Mathlib

/-!
Verification development for the BN_Sed_model repository: a discrete Bayesian
network for sediment quality assessment (src/BN_Sed_model.py) served through a
Flask endpoint (src/app.py).  The factor algebra and the variable-elimination
inference engine are used by the repository through the pgmpy library, whose
code is not part of the repository; those operations are modelled here from the
specification (spec.md §3, §4.1, §4.3).  The network structure, the eight
conditional probability tables, the three example queries and the /predict
handler are embedded directly from the source files.
-/

namespace BNSed

/-- A variable declaration: name and cardinality (number of states). -/
abbrev VarDecl := String × Nat

/-- A total assignment of state indices to variable names. -/
abbrev Assign := String → Nat

/-- Product of the cardinalities of a list of variable declarations. -/
def prodCards (vs : List VarDecl) : Nat := (vs.map (fun p => p.2)).prod

/-- The names of a list of variable declarations. -/
def varNames (vs : List VarDecl) : List String := vs.map (fun p => p.1)

/-- `blocks L n` concatenates, for `i = 0, …, n-1` in order, the block
`L.map (i :: ·)`; used to enumerate joint assignments row-major. -/
def blocks (L : List (List Nat)) : Nat → List (List Nat)
  | 0 => []
  | n + 1 => blocks L n ++ L.map (fun a => n :: a)

/-- Row-major enumeration of all joint assignments of a variable list: the first
variable varies slowest, the right-most variable varies fastest — the flattening
convention of the spec (§3, §6) for dense factor tables. -/
def assignments : List VarDecl → List (List Nat)
  | [] => [[]]
  | p :: rest => blocks (assignments rest) p.2

/-- Update an assignment at one variable. -/
def updateA (g : Assign) (v : String) (i : Nat) : Assign :=
  fun w => if w = v then i else g w

/-- Row-major flat index of an assignment with respect to a variable order. -/
def flatIdx : List VarDecl → Assign → Nat
  | [], _ => 0
  | p :: rest, g => g p.1 * prodCards rest + flatIdx rest g

/-- Interpret a positional assignment list (relative to a variable order) as an
assignment function; variables outside the list get state 0. -/
def toAssign (vs : List VarDecl) (a : List Nat) : Assign :=
  fun v => a.getD ((varNames vs).indexOf v) 0

/-- Modelled from the spec (§3 Factor): an immutable dense table of values over
the joint assignments of an ordered list of discrete variables; the variable
order defines the flattening of the table. -/
structure Factor where
  vars : List VarDecl
  table : List ℚ
deriving DecidableEq, Repr

/-- Value of a factor at a total assignment: dense-table lookup at the flat index. -/
def Factor.valueAt (F : Factor) (g : Assign) : ℚ := F.table.getD (flatIdx F.vars g) 0

/-- Build a factor over `vs` whose table is the row-major tabulation of `h`. -/
def Factor.ofFun (vs : List VarDecl) (h : Assign → ℚ) : Factor :=
  ⟨vs, (assignments vs).map (fun a => h (toAssign vs a))⟩

/-- Does the factor's variable set contain the name `v`? -/
def Factor.mentions (F : Factor) (v : String) : Bool := (varNames F.vars).contains v

/-- Cardinality that the factor records for variable `v` (0 if absent). -/
def Factor.cardOf (F : Factor) (v : String) : Nat :=
  ((F.vars.find? (fun p => p.1 == v)).map (fun p => p.2)).getD 0

/-- Modelled from the spec (§4.1 `combine`): sum-product (pointwise multiply) of
two factors; the result's variable set is the union — the left operand's
variables first, then the right operand's new variables — and for each joint
assignment of the union the value is the product of each operand's value at its
restriction of that assignment. -/
def Factor.combine (A B : Factor) : Factor :=
  Factor.ofFun (A.vars ++ B.vars.filter (fun p => !(varNames A.vars).contains p.1))
    (fun g => A.valueAt g * B.valueAt g)

/-- Modelled from the spec (§4.1 `marginalize`): sums the factor's values over
all states of `v`, removing `v` from the result's variable set. -/
def Factor.marginalize (F : Factor) (v : String) : Factor :=
  Factor.ofFun (F.vars.filter (fun p => p.1 != v))
    (fun g => (Finset.range (F.cardOf v)).sum (fun i => F.valueAt (updateA g v i)))

/-- Modelled from the spec (§4.1 `reduce`): restricts the factor to the slice
where `v` has state index `i`, removing `v` from the result's variable set. -/
def Factor.reduce (F : Factor) (v : String) (i : Nat) : Factor :=
  Factor.ofFun (F.vars.filter (fun p => p.1 != v)) (fun g => F.valueAt (updateA g v i))

/-- Modelled from the spec (§4.1 `normalize`): divides all values by their sum. -/
def Factor.normalize (F : Factor) : Factor :=
  ⟨F.vars, F.table.map (fun q => q / F.table.sum)⟩

/-- Nested sum of `h` over all joint assignments of `vs` (variables outside `vs`
are held at state 0). -/
def sumOver : List VarDecl → (Assign → ℚ) → ℚ
  | [], h => h (fun _ => 0)
  | p :: rest, h =>
      (Finset.range p.2).sum (fun i => sumOver rest (fun g => h (updateA g p.1 i)))

/-- Sum of a factor's values over all joint assignments of its variables. -/
def Factor.sumAll (F : Factor) : ℚ := sumOver F.vars F.valueAt

/-- Modelled from the spec (§3 Network Model): variables with cardinalities in
declaration (topological) order, symbolic state labels per variable, and one CPD
per variable, each CPD a Factor listing the child variable first and then its
parents (right-most parent varying fastest), as in the source's TabularCPDs. -/
structure BNModel where
  vars : List VarDecl
  labels : List (String × List String)
  cpds : List Factor
deriving Repr

/-- Ordered state labels of a model variable. -/
def stateLabels (m : BNModel) (v : String) : List String :=
  ((m.labels.find? (fun p => p.1 == v)).map (fun p => p.2)).getD []

/-- Index of a state label in a variable's declared state order. -/
def stateIndex (m : BNModel) (v : String) (s : String) : Nat :=
  (stateLabels m v).indexOf s

/-- Evidence as in the source's queries: variable name to state label. -/
abbrev Evidence := List (String × String)

/-- Modelled from the spec (§3 Evidence): every key names a model variable and
the assigned state is a valid label for that variable. -/
def evidenceValid (m : BNModel) (ev : Evidence) : Bool :=
  ev.all (fun p => (varNames m.vars).contains p.1 && (stateLabels m p.1).contains p.2)

/-- Modelled from the spec (§4.3 step 2): reduce a factor by every evidence
variable it mentions. -/
def reduceWith (m : BNModel) (ev : Evidence) (F : Factor) : Factor :=
  ev.foldl (fun G p => if G.mentions p.1 then G.reduce p.1 (stateIndex m p.1 p.2) else G) F

/-- Modelled from the spec (§4.3 step 3): the variables to eliminate — every
model variable that is neither queried nor fixed by evidence, in topological
(declaration) order. -/
def elimTargets (m : BNModel) (qs : List String) (ev : Evidence) : List VarDecl :=
  m.vars.filter (fun p => !(qs.contains p.1) && !(ev.any (fun e => e.1 == p.1)))

/-- Union of the variable lists of a set of factors (first occurrence wins). -/
def varsUnion (l : List Factor) : List VarDecl :=
  l.foldl (fun acc F => acc ++ F.vars.filter (fun p => !(varNames acc).contains p.1)) []

/-- Modelled from the spec (§4.3 step 3): cost of eliminating `v` — the size of
the factor resulting from combining all factors that mention `v` and summing
`v` out. -/
def elimCost (factors : List Factor) (v : String) : Nat :=
  prodCards ((varsUnion (factors.filter (fun F => F.mentions v))).filter (fun p => p.1 != v))

/-- Greedy minimum-size choice with ties broken by topological position: the
first candidate attaining the minimal elimination cost. -/
def pickMin (factors : List Factor) (c : VarDecl) (rest : List VarDecl) : VarDecl :=
  rest.foldl (fun best p => if elimCost factors p.1 < elimCost factors best.1 then p else best) c

/-- Combine a list of factors into one (the empty list gives the unit factor). -/
def foldCombine : List Factor → Factor
  | [] => ⟨[], [1]⟩
  | F :: fs => fs.foldl Factor.combine F

/-- Modelled from the spec (§4.3 step 4): gather all factors mentioning `v`,
combine them into one, marginalize `v` out, and replace the consumed factors by
the result. -/
def elimStep (factors : List Factor) (v : String) : List Factor :=
  match factors.filter (fun F => F.mentions v) with
  | [] => factors
  | F :: fs =>
      ((fs.foldl Factor.combine F).marginalize v) :: factors.filter (fun F => !F.mentions v)

/-- Eliminate all target variables, greedily picking the cheapest next variable;
the fuel is the number of targets. -/
def elimAll : Nat → List Factor → List VarDecl → List Factor
  | 0, factors, _ => factors
  | _ + 1, factors, [] => factors
  | fuel + 1, factors, e :: es =>
      let p := pickMin factors e es
      elimAll fuel (elimStep factors p.1) ((e :: es).filter (fun q => q.1 != p.1))

/-- The unnormalized posterior: evidence reduction, elimination of all
non-query non-evidence variables, and combination of the remaining factors
(spec §4.3 steps 1-5, before normalization). -/
def runElimination (m : BNModel) (qs : List String) (ev : Evidence) : Factor :=
  let reduced := m.cpds.map (reduceWith m ev)
  let elims := elimTargets m qs ev
  foldCombine (elimAll elims.length reduced elims)

/-- Modelled from the spec (§4.3 step 6, §7): the typed query-time errors. -/
inductive QueryError where
  | EmptyQuery
  | InvalidEvidence
  | ConflictingEvidence
deriving DecidableEq, Repr

/-- Modelled from the spec (§4.3): the variable-elimination query.  Fails with
`EmptyQuery` on an empty query set, `InvalidEvidence` on an unknown evidence
variable or state, and `ConflictingEvidence` when the unnormalized posterior
sums to zero; otherwise returns the normalized posterior factor. -/
def query (m : BNModel) (qs : List String) (ev : Evidence) : Except QueryError Factor :=
  if qs.isEmpty then .error .EmptyQuery
  else if !(evidenceValid m ev) then .error .InvalidEvidence
  else if (runElimination m qs ev).table.sum = 0 then .error .ConflictingEvidence
  else .ok (runElimination m qs ev).normalize

/-!
The concrete network of src/BN_Sed_model.py.  Each TabularCPD becomes a Factor
whose variable list is the child followed by the evidence (parent) variables and
whose table is the CPD's `values` matrix flattened row by row — the child state
varies slowest and the right-most parent varies fastest, the source's column
convention.
-/

/-- src/BN_Sed_model.py: `cpd_contaminant` — P(Low)=0.6, P(Med)=0.3, P(High)=0.1. -/
def cpd_contaminant : Factor :=
  ⟨[("Contaminant_Conc", 3)], [0.6, 0.3, 0.1]⟩

/-- src/BN_Sed_model.py: `cpd_toc`. -/
def cpd_toc : Factor :=
  ⟨[("TOC", 2)], [0.5, 0.5]⟩

/-- src/BN_Sed_model.py: `cpd_grain_size`. -/
def cpd_grain_size : Factor :=
  ⟨[("Grain_Size", 2)], [0.5, 0.5]⟩

/-- src/BN_Sed_model.py: `cpd_benthic_community`. -/
def cpd_benthic_community : Factor :=
  ⟨[("Benthic_Community_Type", 2)], [0.6, 0.4]⟩

/-- src/BN_Sed_model.py: `cpd_bioavailability` — child Bioavailability, parents
Contaminant_Conc, TOC, Grain_Size. -/
def cpd_bioavailability : Factor :=
  ⟨[("Bioavailability", 2), ("Contaminant_Conc", 3), ("TOC", 2), ("Grain_Size", 2)],
   [0.99, 0.95, 0.90, 0.80, 0.80, 0.60, 0.50, 0.30, 0.40, 0.20, 0.10, 0.05,
    0.01, 0.05, 0.10, 0.20, 0.20, 0.40, 0.50, 0.70, 0.60, 0.80, 0.90, 0.95]⟩

/-- src/BN_Sed_model.py: `cpd_eco_effect` — child Ecological_Effect, parents
Bioavailability, Benthic_Community_Type. -/
def cpd_eco_effect : Factor :=
  ⟨[("Ecological_Effect", 3), ("Bioavailability", 2), ("Benthic_Community_Type", 2)],
   [0.90, 0.70, 0.20, 0.05,
    0.09, 0.25, 0.60, 0.35,
    0.01, 0.05, 0.20, 0.60]⟩

/-- src/BN_Sed_model.py: `cpd_mortality` — child Mortality_Growth, parent
Ecological_Effect. -/
def cpd_mortality : Factor :=
  ⟨[("Mortality_Growth", 2), ("Ecological_Effect", 3)],
   [0.98, 0.40, 0.10,
    0.02, 0.60, 0.90]⟩

/-- src/BN_Sed_model.py: `cpd_richness` — child Community_Richness, parent
Ecological_Effect. -/
def cpd_richness : Factor :=
  ⟨[("Community_Richness", 2), ("Ecological_Effect", 3)],
   [0.95, 0.30, 0.05,
    0.05, 0.70, 0.95]⟩

/-- The model of src/BN_Sed_model.py: nodes of `model_structure` with their
cardinalities and state names, and the eight CPDs attached by `model.add_cpds`. -/
def bnModel : BNModel :=
  { vars := [("Contaminant_Conc", 3), ("TOC", 2), ("Grain_Size", 2),
             ("Benthic_Community_Type", 2), ("Bioavailability", 2),
             ("Ecological_Effect", 3), ("Mortality_Growth", 2), ("Community_Richness", 2)]
    labels := [("Contaminant_Conc", ["Low", "Medium", "High"]),
               ("TOC", ["Low", "High"]),
               ("Grain_Size", ["Coarse", "Fine"]),
               ("Benthic_Community_Type", ["Robust", "Sensitive"]),
               ("Bioavailability", ["Low", "High"]),
               ("Ecological_Effect", ["None", "Moderate", "Severe"]),
               ("Mortality_Growth", ["Normal", "Impaired"]),
               ("Community_Richness", ["High", "Low"])]
    cpds := [cpd_contaminant, cpd_toc, cpd_grain_size, cpd_benthic_community,
             cpd_bioavailability, cpd_eco_effect, cpd_mortality, cpd_richness] }

/-- src/BN_Sed_model.py Example 1: forward inference. -/
def query_result_1 : Except QueryError Factor :=
  query bnModel ["Ecological_Effect"]
    [("Contaminant_Conc", "High"), ("TOC", "Low"), ("Benthic_Community_Type", "Sensitive")]

/-- src/BN_Sed_model.py Example 2: inverse inference (diagnosis). -/
def query_result_2 : Except QueryError Factor :=
  query bnModel ["Contaminant_Conc"] [("Ecological_Effect", "None")]

/-- src/BN_Sed_model.py Example 3, scenario A: robust community. -/
def risk_robust : Except QueryError Factor :=
  query bnModel ["Ecological_Effect"]
    [("Contaminant_Conc", "High"), ("TOC", "Low"), ("Benthic_Community_Type", "Robust")]

/-- src/BN_Sed_model.py Example 3, scenario B: sensitive community. -/
def risk_sensitive : Except QueryError Factor :=
  query bnModel ["Ecological_Effect"]
    [("Contaminant_Conc", "High"), ("TOC", "Low"), ("Benthic_Community_Type", "Sensitive")]

/-- Probability read off a query result: state `i` of the single query
variable; 0 if the query failed. -/
def resultProb (r : Except QueryError Factor) (i : Nat) : ℚ :=
  match r with
  | .ok F => F.table.getD i 0
  | .error _ => 0

/-- The value of the full joint distribution at a total assignment: the product
of all the model's CPD values there. -/
def jointValue (m : BNModel) (g : Assign) : ℚ :=
  (m.cpds.map (fun F => F.valueAt g)).prod

/-- Cardinality the model declares for a variable. -/
def modelCard (m : BNModel) (v : String) : Nat :=
  ((m.vars.find? (fun p => p.1 == v)).map (fun p => p.2)).getD 0

/-- Modelled from the spec (§8, brute-force cross-check): a variable's prior
marginal computed by direct summation of the full joint distribution (the
product of all CPTs) over all other variables. -/
def bruteMarginal (m : BNModel) (v : String) : Factor :=
  Factor.ofFun [(v, modelCard m v)]
    (fun g => sumOver (m.vars.filter (fun p => p.1 != v))
      (fun g2 => jointValue m (updateA g2 v (g v))))

/-- src/app.py `predict`: builds the evidence dictionary with keys
Contaminant_Level, TOC_Content and Grain_Size from the request payload, runs a
VariableElimination query for Ecological_Effect, and answers HTTP 200/"success"
on success and HTTP 400/"error" when the inference call raises. -/
def predictHandler (m : BNModel) (contaminant toc grain : String) : Nat × String :=
  let evidence : Evidence :=
    [("Contaminant_Level", contaminant), ("TOC_Content", toc), ("Grain_Size", grain)]
  match query m ["Ecological_Effect"] evidence with
  | .ok _ => (200, "success")
  | .error _ => (400, "error")

/-- Modelled from the spec (§4.4 `argmax_state`, helper): index and value of the
maximal entry of a list, ties broken by the first occurrence. -/
def bestOf : List ℚ → Nat × ℚ
  | [] => (0, 0)
  | [x] => (0, x)
  | x :: y :: xs =>
      let b := bestOf (y :: xs)
      if x < b.2 then (b.1 + 1, b.2) else (0, x)

/-- Modelled from the spec (§4.4 `argmax_state`): given a posterior factor over
one query variable and that variable's declared state labels, return the state
with the highest probability together with that probability; ties broken by the
first occurrence in the declared state order. -/
def Factor.argmaxState (F : Factor) (labels : List String) : String × ℚ :=
  ((labels.getD (bestOf F.table).1 ""), (bestOf F.table).2)

/-- An assignment is valid on a variable list when every listed variable gets a
state index below its cardinality. -/
abbrev validOn (vs : List VarDecl) (g : Assign) : Prop := ∀ p ∈ vs, g p.1 < p.2

/-- `h` only looks at the variables listed in `vs`. -/
def DependsOn (vs : List VarDecl) (h : Assign → ℚ) : Prop :=
  ∀ g g2 : Assign, (∀ p ∈ vs, g p.1 = g2 p.1) → h g = h g2

/-- Cardinalities consistent on shared variables (spec §4.1: `combine` requires
shared variables to agree on cardinality). -/
abbrev Consistent (A B : Factor) : Prop :=
  ∀ p ∈ A.vars, ∀ q ∈ B.vars, p.1 = q.1 → p.2 = q.2

/-- The CPD normalization invariant of the spec (§3, §8): a CPD factor, child
variable first, whose child-state values sum to 1 (within `tol`) for every
fixed assignment of its parent variables. -/
abbrev cpdColumnsNormalized (F : Factor) (tol : ℚ) : Prop :=
  ∀ a ∈ assignments F.vars.tail,
    |(Finset.range ((F.vars.headD ("", 0)).2)).sum
        (fun i => F.valueAt (toAssign F.vars (i :: a))) - 1| ≤ tol

/-- A two-node model whose root prior puts probability 0 on its second state:
evidence fixing that state is probabilistically impossible. -/
def conflictModel : BNModel :=
  { vars := [("X", 2), ("Y", 2)]
    labels := [("X", ["x0", "x1"]), ("Y", ["y0", "y1"])]
    cpds := [⟨[("X", 2)], [1, 0]⟩,
             ⟨[("Y", 2), ("X", 2)], [0.5, 0.5, 0.5, 0.5]⟩] }

/-- A well-formed working factor over the model's variable registry `M`: its
variables are registered, their names are distinct, the dense table has exactly
one entry per joint assignment, and every entry is strictly positive. -/
abbrev GoodF (M : List VarDecl) (F : Factor) : Prop :=
  (∀ p ∈ F.vars, p ∈ M) ∧ (varNames F.vars).Nodup ∧
  F.table.length = prodCards F.vars ∧ (∀ q ∈ F.table, 0 < q)

/-- Well-formedness of a model: distinct variable names, positive cardinalities,
state-label lists matching the cardinalities, and well-formed strictly positive
CPD tables. -/
abbrev modelOK (m : BNModel) : Prop :=
  (varNames m.vars).Nodup ∧ (∀ p ∈ m.vars, 0 < p.2) ∧
  (∀ p ∈ m.vars, (stateLabels m p.1).length = p.2) ∧
  ∀ F ∈ m.cpds, GoodF m.vars F

theorem length_blocks (L : List (List Nat)) (n : Nat) :
    (blocks L n).length = n * L.length := by
  induction n with
  | zero => simp [blocks]
  | succ k ih => simp [blocks, ih, Nat.succ_mul]

theorem length_assignments (vs : List VarDecl) :
    (assignments vs).length = prodCards vs := by
  induction vs with
  | nil => simp [assignments, prodCards]
  | cons p rest ih => simp [assignments, length_blocks, ih, prodCards]

theorem getElem?_blocks (L : List (List Nat)) (n i r : Nat) (hi : i < n)
    (hr : r < L.length) :
    (blocks L n)[i * L.length + r]? = some (i :: L.getD r []) := by
  induction n with
  | zero => omega
  | succ k ih =>
    rw [blocks, List.getElem?_append]
    rcases Nat.lt_or_ge i k with hik | hik
    · have hlen : i * L.length + r < (blocks L k).length := by
        rw [length_blocks]
        have h1 : i * L.length + r < (i + 1) * L.length := by
          rw [Nat.succ_mul]; omega
        have h2 : (i + 1) * L.length ≤ k * L.length :=
          Nat.mul_le_mul_right _ (by omega)
        omega
      rw [if_pos hlen]
      exact ih hik
    · have hik2 : i = k := by omega
      subst hik2
      have hlen : (blocks L i).length = i * L.length := length_blocks L i
      rw [if_neg (by omega)]
      rw [hlen]
      have hsub : i * L.length + r - i * L.length = r := by omega
      rw [hsub, List.getElem?_map, List.getElem?_eq_getElem hr]
      simp [List.getD_eq_getElem?_getD, List.getElem?_eq_getElem hr]

theorem flatIdx_lt (vs : List VarDecl) (g : Assign) (hg : validOn vs g) :
    flatIdx vs g < prodCards vs := by
  induction vs with
  | nil => simp [flatIdx, prodCards]
  | cons p rest ih =>
    have h1 : flatIdx rest g < prodCards rest := ih (fun q hq => hg q (by simp [hq]))
    have h2 : g p.1 < p.2 := hg p (by simp)
    have h3 : g p.1 * prodCards rest + flatIdx rest g < (g p.1 + 1) * prodCards rest := by
      rw [Nat.succ_mul]; omega
    have h4 : (g p.1 + 1) * prodCards rest ≤ p.2 * prodCards rest :=
      Nat.mul_le_mul_right _ h2
    simp only [flatIdx, prodCards, List.map_cons, List.prod_cons]
    calc g p.1 * prodCards rest + flatIdx rest g
        < (g p.1 + 1) * prodCards rest := h3
      _ ≤ p.2 * prodCards rest := h4

theorem getD_assignments (vs : List VarDecl) (g : Assign) (hg : validOn vs g) :
    (assignments vs).getD (flatIdx vs g) [] = vs.map (fun p => g p.1) := by
  induction vs with
  | nil => simp [assignments, flatIdx]
  | cons p rest ih =>
    have hrest : validOn rest g := fun q hq => hg q (by simp [hq])
    have hidx : flatIdx rest g < (assignments rest).length := by
      rw [length_assignments]; exact flatIdx_lt rest g hrest
    have hp : g p.1 < p.2 := hg p (by simp)
    rw [assignments, flatIdx, List.getD_eq_getElem?_getD]
    rw [show prodCards rest = (assignments rest).length from (length_assignments rest).symm]
    rw [getElem?_blocks (assignments rest) p.2 (g p.1) (flatIdx rest g) hp hidx]
    have ih2 := ih hrest
    rw [List.getD_eq_getElem?_getD] at ih2
    simp [ih2]

theorem flatIdx_congr (vs : List VarDecl) (g g2 : Assign)
    (h : ∀ p ∈ vs, g p.1 = g2 p.1) : flatIdx vs g = flatIdx vs g2 := by
  induction vs with
  | nil => rfl
  | cons p rest ih =>
    simp only [flatIdx]
    rw [h p (by simp), ih (fun q hq => h q (by simp [hq]))]

theorem valueAt_dependsOn (F : Factor) : DependsOn F.vars F.valueAt := by
  intro g g2 h
  unfold Factor.valueAt
  rw [flatIdx_congr F.vars g g2 h]

theorem toAssign_map (vs : List VarDecl) (g : Assign) (p : VarDecl) (hp : p ∈ vs) :
    toAssign vs (vs.map (fun q => g q.1)) p.1 = g p.1 := by
  unfold toAssign varNames
  have hmem : p.1 ∈ vs.map (fun q => q.1) := List.mem_map_of_mem _ hp
  have hlt : (vs.map (fun q => q.1)).indexOf p.1 < (vs.map (fun q => q.1)).length :=
    List.indexOf_lt_length.mpr hmem
  have hlt2 : (vs.map (fun q => q.1)).indexOf p.1 < vs.length := by
    simpa using hlt
  have hname : (vs.map (fun q => q.1))[(vs.map (fun q => q.1)).indexOf p.1] = p.1 :=
    List.getElem_indexOf hlt
  rw [List.getD_eq_getElem?_getD, List.getElem?_map, List.getElem?_eq_getElem hlt2]
  simp only [Option.map_some', Option.getD_some]
  have : (vs[(vs.map (fun q => q.1)).indexOf p.1]).1 = p.1 := by
    have := hname
    rwa [List.getElem_map] at this
  rw [this]

theorem valueAt_ofFun (vs : List VarDecl) (h : Assign → ℚ) (g : Assign)
    (hg : validOn vs g) (hd : DependsOn vs h) :
    (Factor.ofFun vs h).valueAt g = h g := by
  unfold Factor.ofFun Factor.valueAt
  simp only
  have hidx : flatIdx vs g < (assignments vs).length := by
    rw [length_assignments]; exact flatIdx_lt vs g hg
  rw [List.getD_eq_getElem?_getD, List.getElem?_map, List.getElem?_eq_getElem hidx]
  simp only [Option.map_some', Option.getD_some]
  have hget : (assignments vs)[flatIdx vs g] = vs.map (fun p => g p.1) := by
    have := getD_assignments vs g hg
    rwa [List.getD_eq_getElem?_getD, List.getElem?_eq_getElem hidx, Option.getD_some] at this
  rw [hget]
  exact hd _ _ (fun p hp => toAssign_map vs g p hp)

theorem toAssign_nil : toAssign [] [] = fun _ => 0 := by
  funext v
  simp [toAssign, varNames]

theorem toAssign_cons (p : VarDecl) (rest : List VarDecl) (i : Nat) (a : List Nat) :
    toAssign (p :: rest) (i :: a) = updateA (toAssign rest a) p.1 i := by
  funext w
  unfold toAssign updateA varNames
  by_cases hw : w = p.1
  · subst hw
    simp [List.indexOf_cons_self]
  · have hne : p.1 ≠ w := fun h => hw h.symm
    simp only [List.map_cons, List.indexOf_cons_ne _ hne, if_neg hw]
    rfl

theorem sum_map_blocks (L : List (List Nat)) (n : Nat) (f : List Nat → ℚ) :
    ((blocks L n).map f).sum = ∑ i ∈ Finset.range n, (L.map (fun a => f (i :: a))).sum := by
  induction n with
  | zero => simp [blocks]
  | succ k ih =>
    rw [blocks, List.map_append, List.sum_append, ih, Finset.sum_range_succ, List.map_map]
    rfl

theorem sum_map_assignments (vs : List VarDecl) (h : Assign → ℚ) :
    ((assignments vs).map (fun a => h (toAssign vs a))).sum = sumOver vs h := by
  induction vs generalizing h with
  | nil => simp [assignments, sumOver, toAssign_nil]
  | cons p rest ih =>
    rw [assignments, sum_map_blocks, sumOver]
    apply Finset.sum_congr rfl
    intro i _
    rw [← ih (fun g => h (updateA g p.1 i))]
    congr 1
    apply List.map_congr_left
    intro a _
    rw [toAssign_cons]

theorem table_ofFun_sum (vs : List VarDecl) (h : Assign → ℚ) :
    (Factor.ofFun vs h).table.sum = sumOver vs h := by
  unfold Factor.ofFun
  exact sum_map_assignments vs h

theorem sumOver_sum (vs : List VarDecl) (s : Finset Nat) (H : Nat → Assign → ℚ) :
    sumOver vs (fun g => ∑ i ∈ s, H i g) = ∑ i ∈ s, sumOver vs (H i) := by
  induction vs generalizing H with
  | nil => simp [sumOver]
  | cons p rest ih =>
    simp only [sumOver]
    rw [← Finset.sum_comm]
    apply Finset.sum_congr rfl
    intro j _
    exact ih (fun i g => H i (updateA g p.1 j))

theorem sumOver_congr (vs : List VarDecl) (h h2 : Assign → ℚ)
    (hnd : (varNames vs).Nodup) (hc : ∀ g, validOn vs g → h g = h2 g) :
    sumOver vs h = sumOver vs h2 := by
  induction vs generalizing h h2 with
  | nil => exact hc (fun _ => 0) (by intro p hp; cases hp)
  | cons p rest ih =>
    have hnd2 : (varNames rest).Nodup ∧ p.1 ∉ varNames rest := by
      have := hnd
      simp only [varNames, List.map_cons, List.nodup_cons] at this
      exact ⟨this.2, this.1⟩
    simp only [sumOver]
    apply Finset.sum_congr rfl
    intro i hi
    apply ih _ _ hnd2.1
    intro g hg
    apply hc
    intro q hq
    rcases List.mem_cons.mp hq with hq1 | hq2
    · subst hq1
      simp only [updateA, if_pos rfl]
      exact Finset.mem_range.mp hi
    · have hqp : q.1 ≠ p.1 := by
        intro he
        exact hnd2.2 (he ▸ List.mem_map_of_mem (fun r => r.1) hq2)
      simp only [updateA, if_neg hqp]
      exact hg q hq2

theorem updateA_comm (g : Assign) (v w : String) (i j : Nat) (hvw : v ≠ w) :
    updateA (updateA g v i) w j = updateA (updateA g w j) v i := by
  funext u
  unfold updateA
  by_cases h1 : u = w <;> by_cases h2 : u = v
  · exact absurd (h2.symm.trans h1) hvw
  · simp [h1, h2, Ne.symm hvw]
  · simp [h1, h2, hvw]
  · simp [h1, h2]

theorem sumOver_elim (vs : List VarDecl) (v : String) (c : Nat) (h : Assign → ℚ)
    (hnd : (varNames vs).Nodup) (hmem : (v, c) ∈ vs) :
    sumOver vs h =
      sumOver (vs.filter (fun p => p.1 != v))
        (fun g => ∑ i ∈ Finset.range c, h (updateA g v i)) := by
  induction vs generalizing h with
  | nil => cases hmem
  | cons p rest ih =>
    have hnd2 : (varNames rest).Nodup ∧ p.1 ∉ varNames rest := by
      have := hnd
      simp only [varNames, List.map_cons, List.nodup_cons] at this
      exact ⟨this.2, this.1⟩
    rcases List.mem_cons.mp hmem with hp | hp
    · have hp1 : p.1 = v := by rw [← hp]
      have hp2 : p.2 = c := by rw [← hp]
      have hfilter : List.filter (fun q => q.1 != v) (p :: rest) = rest := by
        rw [List.filter_cons_of_neg (by simp [hp1])]
        apply List.filter_eq_self.mpr
        intro q hq
        have : q.1 ≠ v := by
          intro he
          exact hnd2.2 (by rw [hp1]; exact he ▸ List.mem_map_of_mem (fun r => r.1) hq)
        simpa [bne_iff_ne]
      rw [hfilter, sumOver, hp1, hp2, sumOver_sum]
    · have hpv : p.1 ≠ v := by
        intro he
        apply hnd2.2
        rw [he]
        exact List.mem_map_of_mem (fun r => r.1) hp
      have hfilter : List.filter (fun q => q.1 != v) (p :: rest) =
          p :: List.filter (fun q => q.1 != v) rest := by
        rw [List.filter_cons_of_pos (by simpa [bne_iff_ne])]
      rw [hfilter]
      simp only [sumOver]
      apply Finset.sum_congr rfl
      intro j _
      rw [ih (fun g => h (updateA g p.1 j)) hnd2.1 hp]
      apply congrArg
      funext g
      apply Finset.sum_congr rfl
      intro i _
      rw [updateA_comm g v p.1 i j (fun he => hpv he.symm)]

theorem nodup_name_inj (vs : List VarDecl) (hnd : (varNames vs).Nodup)
    (p q : VarDecl) (hp : p ∈ vs) (hq : q ∈ vs) (h : p.1 = q.1) : p = q := by
  induction vs with
  | nil => cases hp
  | cons r rest ih =>
    have hnd2 : (varNames rest).Nodup ∧ r.1 ∉ varNames rest := by
      have := hnd
      simp only [varNames, List.map_cons, List.nodup_cons] at this
      exact ⟨this.2, this.1⟩
    rcases List.mem_cons.mp hp with hp1 | hp1 <;> rcases List.mem_cons.mp hq with hq1 | hq1
    · rw [hp1, hq1]
    · exfalso
      apply hnd2.2
      rw [← hp1, h]
      exact List.mem_map_of_mem (fun r => r.1) hq1
    · exfalso
      apply hnd2.2
      rw [← hq1, ← h]
      exact List.mem_map_of_mem (fun r => r.1) hp1
    · exact ih hnd2.1 hp1 hq1

theorem cardOf_eq (F : Factor) (v : String) (c : Nat)
    (hnd : (varNames F.vars).Nodup) (hmem : (v, c) ∈ F.vars) : F.cardOf v = c := by
  unfold Factor.cardOf
  rcases hfind : F.vars.find? (fun p => p.1 == v) with _ | q
  · exfalso
    have := List.find?_eq_none.mp hfind (v, c) hmem
    simp at this
  · have hq1 : q.1 = v := by
      have := List.find?_some hfind
      simpa using this
    have hqmem : q ∈ F.vars := List.mem_of_find?_eq_some hfind
    have : q = (v, c) := nodup_name_inj F.vars hnd q (v, c) hqmem hmem (by simpa using hq1)
    rw [hfind, this]
    rfl

theorem nodup_filter_varNames (vs : List VarDecl) (q : VarDecl → Bool)
    (hnd : (varNames vs).Nodup) : (varNames (vs.filter q)).Nodup := by
  unfold varNames
  unfold varNames at hnd
  have hs : (vs.filter q).Sublist vs := List.filter_sublist vs
  have hs2 : (List.map (fun p : VarDecl => p.1) (vs.filter q)).Sublist
      (List.map (fun p : VarDecl => p.1) vs) := hs.map (fun p : VarDecl => p.1)
  exact List.Nodup.sublist hs2 hnd

theorem dependsOn_names_mono (vs vs2 : List VarDecl) (h : Assign → ℚ)
    (hsub : ∀ s ∈ varNames vs, s ∈ varNames vs2) (hd : DependsOn vs h) :
    DependsOn vs2 h := by
  intro g g2 hagree
  apply hd
  intro p hp
  have hp2 : p.1 ∈ varNames vs2 := hsub p.1 (List.mem_map_of_mem (fun r => r.1) hp)
  obtain ⟨q, hq, hq1⟩ := List.mem_map.mp hp2
  rw [← hq1]
  exact hagree q hq

theorem dependsOn_mul (vs : List VarDecl) (h h2 : Assign → ℚ)
    (hd : DependsOn vs h) (hd2 : DependsOn vs h2) :
    DependsOn vs (fun g => h g * h2 g) := by
  intro g g2 hagree
  show h g * h2 g = h g2 * h2 g2
  rw [hd g g2 hagree, hd2 g g2 hagree]

theorem mem_combine_vars (A B : Factor) (p : VarDecl) :
    p ∈ (A.combine B).vars ↔ p ∈ A.vars ∨ (p ∈ B.vars ∧ p.1 ∉ varNames A.vars) := by
  unfold Factor.combine Factor.ofFun
  simp only [List.mem_append, List.mem_filter, Bool.not_eq_true']
  constructor
  · rintro (h | ⟨h1, h2⟩)
    · exact Or.inl h
    · refine Or.inr ⟨h1, ?_⟩
      simpa using h2
  · rintro (h | ⟨h1, h2⟩)
    · exact Or.inl h
    · refine Or.inr ⟨h1, ?_⟩
      simpa using h2

theorem mem_varNames_combine (A B : Factor) (s : String) :
    s ∈ varNames (A.combine B).vars ↔ s ∈ varNames A.vars ∨ s ∈ varNames B.vars := by
  constructor
  · intro hs
    obtain ⟨p, hp, hp1⟩ := List.mem_map.mp hs
    rcases (mem_combine_vars A B p).mp hp with h | ⟨h, _⟩
    · exact Or.inl (hp1 ▸ List.mem_map_of_mem (fun r => r.1) h)
    · exact Or.inr (hp1 ▸ List.mem_map_of_mem (fun r => r.1) h)
  · intro hs
    rcases hs with hs | hs
    · obtain ⟨p, hp, hp1⟩ := List.mem_map.mp hs
      exact hp1 ▸ List.mem_map_of_mem (fun r => r.1)
        ((mem_combine_vars A B p).mpr (Or.inl hp))
    · obtain ⟨p, hp, hp1⟩ := List.mem_map.mp hs
      by_cases hA : p.1 ∈ varNames A.vars
      · obtain ⟨q, hq, hq1⟩ := List.mem_map.mp hA
        rw [← hp1, ← hq1]
        exact List.mem_map_of_mem (fun r => r.1)
          ((mem_combine_vars A B q).mpr (Or.inl hq))
      · exact hp1 ▸ List.mem_map_of_mem (fun r => r.1)
          ((mem_combine_vars A B p).mpr (Or.inr ⟨hp, hA⟩))

theorem validOn_mono (vs vs2 : List VarDecl) (g : Assign)
    (hsub : ∀ p ∈ vs2, p ∈ vs) (hg : validOn vs g) : validOn vs2 g :=
  fun p hp => hg p (hsub p hp)

theorem validOn_combine_left (A B : Factor) (g : Assign)
    (hg : validOn (A.combine B).vars g) : validOn A.vars g :=
  validOn_mono _ _ g (fun p hp => (mem_combine_vars A B p).mpr (Or.inl hp)) hg

theorem validOn_combine_right (A B : Factor) (g : Assign) (hcons : Consistent A B)
    (hg : validOn (A.combine B).vars g) : validOn B.vars g := by
  intro p hp
  by_cases hn : p.1 ∈ varNames A.vars
  · obtain ⟨q, hq, hq1⟩ := List.mem_map.mp hn
    have hcard : q.2 = p.2 := hcons q hq p hp hq1
    have hv := hg q ((mem_combine_vars A B q).mpr (Or.inl hq))
    rw [hq1] at hv
    rw [← hcard]
    exact hv
  · exact hg p ((mem_combine_vars A B p).mpr (Or.inr ⟨hp, hn⟩))

theorem combine_dependsOn (A B : Factor) :
    DependsOn (A.combine B).vars (fun g => A.valueAt g * B.valueAt g) := by
  apply dependsOn_mul
  · apply dependsOn_names_mono A.vars _ _ _ (valueAt_dependsOn A)
    intro s hs
    exact (mem_varNames_combine A B s).mpr (Or.inl hs)
  · apply dependsOn_names_mono B.vars _ _ _ (valueAt_dependsOn B)
    intro s hs
    exact (mem_varNames_combine A B s).mpr (Or.inr hs)

theorem valueAt_combine (A B : Factor) (g : Assign)
    (hg : validOn (A.combine B).vars g) :
    (A.combine B).valueAt g = A.valueAt g * B.valueAt g := by
  unfold Factor.combine
  exact valueAt_ofFun _ _ g hg (combine_dependsOn A B)

theorem marginalize_dependsOn (F : Factor) (v : String) :
    DependsOn (F.vars.filter (fun p => p.1 != v))
      (fun g => ∑ i ∈ Finset.range (F.cardOf v), F.valueAt (updateA g v i)) := by
  intro g g2 hagree
  apply Finset.sum_congr rfl
  intro i _
  apply valueAt_dependsOn F
  intro p hp
  by_cases hpv : p.1 = v
  · simp [updateA, hpv]
  · have hpf : p ∈ F.vars.filter (fun q => q.1 != v) :=
      List.mem_filter.mpr ⟨hp, by simpa [bne_iff_ne]⟩
    simp only [updateA, if_neg hpv]
    exact hagree p hpf

theorem valueAt_marginalize (F : Factor) (v : String) (g : Assign)
    (hg : validOn (F.vars.filter (fun p => p.1 != v)) g) :
    (F.marginalize v).valueAt g =
      ∑ i ∈ Finset.range (F.cardOf v), F.valueAt (updateA g v i) := by
  unfold Factor.marginalize
  exact valueAt_ofFun _ _ g hg (marginalize_dependsOn F v)

theorem reduce_dependsOn (F : Factor) (v : String) (i : Nat) :
    DependsOn (F.vars.filter (fun p => p.1 != v))
      (fun g => F.valueAt (updateA g v i)) := by
  intro g g2 hagree
  apply valueAt_dependsOn F
  intro p hp
  by_cases hpv : p.1 = v
  · simp [updateA, hpv]
  · have hpf : p ∈ F.vars.filter (fun q => q.1 != v) :=
      List.mem_filter.mpr ⟨hp, by simpa [bne_iff_ne]⟩
    simp only [updateA, if_neg hpv]
    exact hagree p hpf

theorem valueAt_reduce (F : Factor) (v : String) (i : Nat) (g : Assign)
    (hg : validOn (F.vars.filter (fun p => p.1 != v)) g) :
    (F.reduce v i).valueAt g = F.valueAt (updateA g v i) := by
  unfold Factor.reduce
  exact valueAt_ofFun _ _ g hg (reduce_dependsOn F v i)

theorem consistent_combine_right (A B C : Factor) (hAC : Consistent A C)
    (hAB : Consistent A B) : Consistent A (C.combine B) := by
  intro p hp q hq heq
  rcases (mem_combine_vars C B q).mp hq with h | ⟨h, _⟩
  · exact hAC p hp q h heq
  · exact hAB p hp q h heq

/-- C5: factor combination is commutative and associative up to variable
reordering — for factors `A`, `B`, `C` with consistent cardinalities on shared
variables, `(A⊗B)⊗C` and `A⊗(C⊗B)` have the same variable set and the same
value at every valid joint assignment of the union (i.e. the same table values
once the variable orders are aligned). -/
theorem combine_comm_assoc_upto_reorder (A B C : Factor)
    (hAB : Consistent A B) (hAC : Consistent A C) (hBC : Consistent B C) :
    (∀ p : VarDecl, p ∈ ((A.combine B).combine C).vars ↔
        p ∈ (A.combine (C.combine B)).vars) ∧
    (∀ g : Assign, validOn ((A.combine B).combine C).vars g →
        ((A.combine B).combine C).valueAt g = (A.combine (C.combine B)).valueAt g) := by
  have hmem : ∀ p : VarDecl, p ∈ ((A.combine B).combine C).vars ↔
      p ∈ (A.combine (C.combine B)).vars := by
    intro p
    rw [mem_combine_vars, mem_combine_vars, mem_combine_vars, mem_combine_vars]
    constructor
    · rintro ((h | ⟨hB, hnA⟩) | ⟨hC, hnAB⟩)
      · exact Or.inl h
      · by_cases hnC : p.1 ∈ varNames C.vars
        · obtain ⟨q, hq, hq1⟩ := List.mem_map.mp hnC
          have hqp : q = p := Prod.ext hq1 (hBC p hB q hq hq1.symm).symm
          exact Or.inr ⟨Or.inl (hqp ▸ hq), hnA⟩
        · exact Or.inr ⟨Or.inr ⟨hB, hnC⟩, hnA⟩
      · have hsplit : p.1 ∉ varNames A.vars ∧ p.1 ∉ varNames B.vars := by
          constructor <;> intro h <;>
            exact hnAB ((mem_varNames_combine A B p.1).mpr (by tauto))
        exact Or.inr ⟨Or.inl hC, hsplit.1⟩
    · rintro (h | ⟨(hC | ⟨hB, hnC⟩), hnA⟩)
      · exact Or.inl (Or.inl h)
      · by_cases hnB : p.1 ∈ varNames B.vars
        · obtain ⟨q, hq, hq1⟩ := List.mem_map.mp hnB
          have hqp : q = p := Prod.ext hq1 (hBC q hq p hC hq1)
          exact Or.inl (Or.inr ⟨hqp ▸ hq, hnA⟩)
        · refine Or.inr ⟨hC, ?_⟩
          intro hmem2
          rcases (mem_varNames_combine A B p.1).mp hmem2 with h | h
          exacts [hnA h, hnB h]
      · exact Or.inl (Or.inr ⟨hB, hnA⟩)
  refine ⟨hmem, ?_⟩
  intro g hg
  have hgR : validOn (A.combine (C.combine B)).vars g :=
    validOn_mono _ _ g (fun p hp => (hmem p).mpr hp) hg
  have hconsACB : Consistent A (C.combine B) := consistent_combine_right A B C hAC hAB
  rw [valueAt_combine _ _ g hg,
      valueAt_combine A B g (validOn_combine_left _ _ g hg),
      valueAt_combine A _ g hgR,
      valueAt_combine C B g (validOn_combine_right A _ g hconsACB hgR)]
  ring

/-- Witness for C5 at concrete overlapping factors. -/
theorem combine_comm_assoc_upto_reorder_witness :
    Consistent (Factor.mk [("x", 2), ("y", 2)] [1, 2, 3, 4])
      (Factor.mk [("y", 2), ("z", 2)] [5, 6, 7, 8]) ∧
    Consistent (Factor.mk [("x", 2), ("y", 2)] [1, 2, 3, 4])
      (Factor.mk [("z", 2)] [9, 10]) ∧
    Consistent (Factor.mk [("y", 2), ("z", 2)] [5, 6, 7, 8])
      (Factor.mk [("z", 2)] [9, 10]) ∧
    ((∀ p : VarDecl,
        p ∈ (((Factor.mk [("x", 2), ("y", 2)] [1, 2, 3, 4]).combine
              (Factor.mk [("y", 2), ("z", 2)] [5, 6, 7, 8])).combine
              (Factor.mk [("z", 2)] [9, 10])).vars ↔
        p ∈ ((Factor.mk [("x", 2), ("y", 2)] [1, 2, 3, 4]).combine
              ((Factor.mk [("z", 2)] [9, 10]).combine
               (Factor.mk [("y", 2), ("z", 2)] [5, 6, 7, 8]))).vars) ∧
     (∀ g : Assign,
        validOn (((Factor.mk [("x", 2), ("y", 2)] [1, 2, 3, 4]).combine
              (Factor.mk [("y", 2), ("z", 2)] [5, 6, 7, 8])).combine
              (Factor.mk [("z", 2)] [9, 10])).vars g →
        (((Factor.mk [("x", 2), ("y", 2)] [1, 2, 3, 4]).combine
              (Factor.mk [("y", 2), ("z", 2)] [5, 6, 7, 8])).combine
              (Factor.mk [("z", 2)] [9, 10])).valueAt g =
        ((Factor.mk [("x", 2), ("y", 2)] [1, 2, 3, 4]).combine
              ((Factor.mk [("z", 2)] [9, 10]).combine
               (Factor.mk [("y", 2), ("z", 2)] [5, 6, 7, 8]))).valueAt g)) :=
  ⟨by decide, by decide, by decide,
   combine_comm_assoc_upto_reorder
     (Factor.mk [("x", 2), ("y", 2)] [1, 2, 3, 4])
     (Factor.mk [("y", 2), ("z", 2)] [5, 6, 7, 8])
     (Factor.mk [("z", 2)] [9, 10]) (by decide) (by decide) (by decide)⟩

/-- C6: marginalization conserves total mass — for every factor `F` and every
variable `v` in `F`'s variable set, the sum of `marginalize F v`'s values over
all joint assignments of the remaining variables equals the sum of `F`'s values
over all joint assignments of all its variables. -/
theorem marginalize_conserves_mass (F : Factor) (v : String) (c : Nat)
    (hnd : (varNames F.vars).Nodup) (hmem : (v, c) ∈ F.vars) :
    (F.marginalize v).sumAll = F.sumAll := by
  unfold Factor.sumAll
  have hvars : (F.marginalize v).vars = F.vars.filter (fun p => p.1 != v) := rfl
  rw [hvars]
  have hnd2 := nodup_filter_varNames F.vars (fun p => p.1 != v) hnd
  have hcard := cardOf_eq F v c hnd hmem
  have step1 : sumOver (F.vars.filter (fun p => p.1 != v)) (F.marginalize v).valueAt
      = sumOver (F.vars.filter (fun p => p.1 != v))
          (fun g => ∑ i ∈ Finset.range c, F.valueAt (updateA g v i)) := by
    apply sumOver_congr _ _ _ hnd2
    intro g hg
    rw [valueAt_marginalize F v g hg, hcard]
  rw [step1]
  exact (sumOver_elim F.vars v c F.valueAt hnd hmem).symm

/-- Witness for C6 at the eco-effect CPD, marginalizing Bioavailability. -/
theorem marginalize_conserves_mass_witness :
    (varNames cpd_eco_effect.vars).Nodup ∧ ("Bioavailability", 2) ∈ cpd_eco_effect.vars ∧
    (cpd_eco_effect.marginalize "Bioavailability").sumAll = cpd_eco_effect.sumAll :=
  ⟨by decide, by decide,
   marginalize_conserves_mass cpd_eco_effect "Bioavailability" 2 (by decide) (by decide)⟩

set_option allowUnsafeReducibility true

attribute [local semireducible] Rat.add Rat.mul Rat.div Rat.ofScientific Rat.blt
  Rat.normalize Rat.sub Rat.neg Rat.inv

set_option maxRecDepth 4000000

/-- C2: for every CPD attached to the model and every fixed assignment of that
CPD's parent variables, the values over the child variable's states sum to 1
within a tolerance of 1e-6. -/
theorem all_cpds_columns_sum_to_one :
    cpdColumnsNormalized cpd_contaminant (1 / 1000000) ∧
    cpdColumnsNormalized cpd_toc (1 / 1000000) ∧
    cpdColumnsNormalized cpd_grain_size (1 / 1000000) ∧
    cpdColumnsNormalized cpd_benthic_community (1 / 1000000) ∧
    cpdColumnsNormalized cpd_bioavailability (1 / 1000000) ∧
    cpdColumnsNormalized cpd_eco_effect (1 / 1000000) ∧
    cpdColumnsNormalized cpd_mortality (1 / 1000000) ∧
    cpdColumnsNormalized cpd_richness (1 / 1000000) := by
  decide

/-- Witness for C2 at a concrete parent assignment of the bioavailability CPD. -/
theorem all_cpds_columns_sum_to_one_witness :
    [2, 0, 0] ∈ assignments cpd_bioavailability.vars.tail ∧
    |(Finset.range ((cpd_bioavailability.vars.headD ("", 0)).2)).sum
        (fun i => cpd_bioavailability.valueAt
          (toAssign cpd_bioavailability.vars (i :: [2, 0, 0]))) - 1| ≤ 1 / 1000000 :=
  ⟨by decide, all_cpds_columns_sum_to_one.2.2.2.2.1 [2, 0, 0] (by decide)⟩

/-- C3: with evidence Contaminant_Conc=High, TOC=Low the posterior probability
of Ecological_Effect=Severe is strictly greater for a Sensitive community than
for a Robust one, and in the Sensitive scenario the three posterior values sum
to 1. -/
theorem sensitive_severer_than_robust :
    resultProb risk_sensitive 2 > resultProb risk_robust 2 ∧
    resultProb risk_sensitive 0 + resultProb risk_sensitive 1 +
      resultProb risk_sensitive 2 = 1 ∧
    risk_sensitive.toOption.isSome = true ∧ risk_robust.toOption.isSome = true := by
  decide

/-- C4: the posterior probability of Contaminant_Conc=Low given
Ecological_Effect=None strictly exceeds the prior P(Low)=0.6 of
`cpd_contaminant`. -/
theorem diagnosis_raises_benign_prior :
    resultProb query_result_2 0 > cpd_contaminant.table.getD 0 0 ∧
    cpd_contaminant.table.getD 0 0 = 0.6 ∧
    query_result_2.toOption.isSome = true := by
  decide

/-- C7: whenever the checks pass but the unnormalized posterior sums to zero
(the evidence forces a branch of prior probability zero), `query` fails with
`ConflictingEvidence` instead of dividing by the zero sum. -/
theorem zero_posterior_is_conflicting_evidence (m : BNModel) (qs : List String)
    (ev : Evidence) (hq : qs ≠ []) (hev : evidenceValid m ev = true)
    (hsum : (runElimination m qs ev).table.sum = 0) :
    query m qs ev = .error .ConflictingEvidence := by
  unfold query
  rw [if_neg (by simpa [List.isEmpty_iff] using hq), hev]
  simp [hsum]

/-- Witness for C7: in `conflictModel`, evidence X=x1 has prior probability 0,
and the query for Y reports `ConflictingEvidence`. -/
theorem zero_posterior_is_conflicting_evidence_witness :
    (["Y"] ≠ ([] : List String)) ∧
    evidenceValid conflictModel [("X", "x1")] = true ∧
    (runElimination conflictModel ["Y"] [("X", "x1")]).table.sum = 0 ∧
    query conflictModel ["Y"] [("X", "x1")] = .error .ConflictingEvidence :=
  ⟨by decide, by decide, by decide,
   zero_posterior_is_conflicting_evidence conflictModel ["Y"] [("X", "x1")]
     (by decide) (by decide) (by decide)⟩

theorem bestOf_spec (l : List ℚ) (hne : l ≠ []) :
    (bestOf l).1 < l.length ∧ l.getD (bestOf l).1 0 = (bestOf l).2 ∧
    (∀ q ∈ l, q ≤ (bestOf l).2) ∧
    (∀ j < (bestOf l).1, l.getD j 0 < (bestOf l).2) := by
  induction l with
  | nil => exact absurd rfl hne
  | cons x xs ih =>
    cases xs with
    | nil =>
      refine ⟨by simp [bestOf], by simp [bestOf], ?_, ?_⟩
      · intro q hq
        rw [List.mem_singleton] at hq
        simp [bestOf, hq]
      · intro j hj
        simp [bestOf] at hj
    | cons y ys =>
      obtain ⟨ih1, ih2, ih3, ih4⟩ := ih (by simp)
      have hdef : bestOf (x :: y :: ys) =
          if x < (bestOf (y :: ys)).2
          then ((bestOf (y :: ys)).1 + 1, (bestOf (y :: ys)).2)
          else (0, x) := rfl
      by_cases hx : x < (bestOf (y :: ys)).2
      · rw [hdef, if_pos hx]
        refine ⟨by simpa using Nat.succ_lt_succ ih1, by simpa using ih2, ?_, ?_⟩
        · intro q hq
          rcases List.mem_cons.mp hq with hq1 | hq1
          · exact hq1 ▸ le_of_lt hx
          · exact ih3 q hq1
        · intro j hj
          cases j with
          | zero => simpa using hx
          | succ k =>
            have hk : k < (bestOf (y :: ys)).1 := by omega
            simpa using ih4 k hk
      · rw [hdef, if_neg hx]
        refine ⟨by simp, by simp, ?_, ?_⟩
        · intro q hq
          rcases List.mem_cons.mp hq with hq1 | hq1
          · exact hq1 ▸ le_refl x
          · exact le_trans (ih3 q hq1) (le_of_not_lt hx)
        · intro j hj
          simp at hj

/-- C8: applied to a posterior factor over one query variable, `argmax_state`
returns the state with the highest probability together with that probability,
and a tie is broken in favour of the first such state in the variable's
declared state order. -/
theorem argmaxState_spec (F : Factor) (labels : List String) (hne : F.table ≠ []) :
    ∃ i, i < F.table.length ∧
      F.argmaxState labels = (labels.getD i "", F.table.getD i 0) ∧
      (∀ q ∈ F.table, q ≤ F.table.getD i 0) ∧
      (∀ j < i, F.table.getD j 0 < F.table.getD i 0) := by
  obtain ⟨h1, h2, h3, h4⟩ := bestOf_spec F.table hne
  refine ⟨(bestOf F.table).1, h1, ?_, ?_, ?_⟩
  · unfold Factor.argmaxState
    rw [h2]
  · rw [h2]
    exact h3
  · rw [h2]
    exact h4

/-- Witness for C8 at a posterior with a tie between the last two states. -/
theorem argmaxState_spec_witness :
    (Factor.mk [("Ecological_Effect", 3)] [0.2, 0.4, 0.4]).table ≠ [] ∧
    ∃ i, i < (Factor.mk [("Ecological_Effect", 3)] [0.2, 0.4, 0.4]).table.length ∧
      (Factor.mk [("Ecological_Effect", 3)] [0.2, 0.4, 0.4]).argmaxState
          ["None", "Moderate", "Severe"] =
        (["None", "Moderate", "Severe"].getD i "",
         (Factor.mk [("Ecological_Effect", 3)] [0.2, 0.4, 0.4]).table.getD i 0) ∧
      (∀ q ∈ (Factor.mk [("Ecological_Effect", 3)] [0.2, 0.4, 0.4]).table,
        q ≤ (Factor.mk [("Ecological_Effect", 3)] [0.2, 0.4, 0.4]).table.getD i 0) ∧
      (∀ j < i, (Factor.mk [("Ecological_Effect", 3)] [0.2, 0.4, 0.4]).table.getD j 0 <
        (Factor.mk [("Ecological_Effect", 3)] [0.2, 0.4, 0.4]).table.getD i 0) :=
  ⟨by decide,
   argmaxState_spec (Factor.mk [("Ecological_Effect", 3)] [0.2, 0.4, 0.4])
     ["None", "Moderate", "Severe"] (by decide)⟩

/-- C9: for every /predict request payload, the evidence dictionary is keyed by
Contaminant_Level and TOC_Content, which are not variables of the model built
in BN_Sed_model.py, so the inference call fails and the endpoint always
answers HTTP 400 with status "error" — never a successful prediction. -/
theorem predict_always_client_error (contaminant toc grain : String) :
    predictHandler bnModel contaminant toc grain = (400, "error") := by
  unfold predictHandler
  have h1 : (varNames bnModel.vars).contains "Contaminant_Level" = false := by decide
  have hval : evidenceValid bnModel
      [("Contaminant_Level", contaminant), ("TOC_Content", toc),
       ("Grain_Size", grain)] = false := by
    simp only [evidenceValid, List.all_cons, h1, Bool.false_and]
  have hq : query bnModel ["Ecological_Effect"]
      [("Contaminant_Level", contaminant), ("TOC_Content", toc),
       ("Grain_Size", grain)] = .error .InvalidEvidence := by
    unfold query
    rw [if_neg (by decide), hval]
    simp
  simp [hq]

set_option maxHeartbeats 12000000

theorem mem_blocks (L : List (List Nat)) (n : Nat) (a : List Nat) :
    a ∈ blocks L n ↔ ∃ i, i < n ∧ ∃ b ∈ L, a = i :: b := by
  induction n with
  | zero => simp [blocks]
  | succ k ih =>
    rw [blocks]
    simp only [List.mem_append, ih, List.mem_map]
    constructor
    · rintro (⟨i, hi, b, hb, rfl⟩ | ⟨b, hb, rfl⟩)
      · exact ⟨i, by omega, b, hb, rfl⟩
      · exact ⟨k, by omega, b, hb, rfl⟩
    · rintro ⟨i, hi, b, hb, rfl⟩
      rcases Nat.lt_or_ge i k with h | h
      · exact Or.inl ⟨i, h, b, hb, rfl⟩
      · have hik : i = k := by omega
        subst hik
        exact Or.inr ⟨b, hb, rfl⟩

theorem toAssign_valid (vs : List VarDecl) (a : List Nat)
    (hnd : (varNames vs).Nodup) (ha : a ∈ assignments vs) :
    validOn vs (toAssign vs a) := by
  induction vs generalizing a with
  | nil => intro p hp; cases hp
  | cons p rest ih =>
    have hnd2 : (varNames rest).Nodup ∧ p.1 ∉ varNames rest := by
      have := hnd
      simp only [varNames, List.map_cons, List.nodup_cons] at this
      exact ⟨this.2, this.1⟩
    rw [assignments] at ha
    obtain ⟨i, hi, b, hb, rfl⟩ := (mem_blocks _ _ _).mp ha
    rw [toAssign_cons]
    intro q hq
    rcases List.mem_cons.mp hq with hq1 | hq1
    · subst hq1
      simp only [updateA, if_pos rfl]
      exact hi
    · have hqp : q.1 ≠ p.1 :=
        fun he => hnd2.2 (he ▸ List.mem_map_of_mem (fun r => r.1) hq1)
      simp only [updateA, if_neg hqp]
      exact ih b hnd2.1 hb q hq1

theorem goodF_valueAt_pos (M : List VarDecl) (F : Factor) (hF : GoodF M F)
    (g : Assign) (hg : validOn F.vars g) : 0 < F.valueAt g := by
  have hidx : flatIdx F.vars g < F.table.length := by
    rw [hF.2.2.1]
    exact flatIdx_lt F.vars g hg
  unfold Factor.valueAt
  rw [List.getD_eq_getElem?_getD, List.getElem?_eq_getElem hidx]
  exact hF.2.2.2 _ (List.getElem_mem hidx)

theorem goodF_ofFun (M : List VarDecl) (vs : List VarDecl) (h : Assign → ℚ)
    (hsub : ∀ p ∈ vs, p ∈ M) (hnd : (varNames vs).Nodup)
    (hpos : ∀ g, validOn vs g → 0 < h g) : GoodF M (Factor.ofFun vs h) := by
  refine ⟨hsub, hnd, ?_, ?_⟩
  · show ((assignments vs).map _).length = _
    rw [List.length_map, length_assignments]
    rfl
  · intro q hq
    obtain ⟨a, ha, rfl⟩ := List.mem_map.mp hq
    exact hpos _ (toAssign_valid vs a hnd ha)

theorem consistent_of_registered (M : List VarDecl) (hndM : (varNames M).Nodup)
    (A B : Factor) (hA : ∀ p ∈ A.vars, p ∈ M) (hB : ∀ p ∈ B.vars, p ∈ M) :
    Consistent A B :=
  fun p hp q hq heq =>
    congrArg Prod.snd (nodup_name_inj M hndM p q (hA p hp) (hB q hq) heq)

theorem goodF_combine (M : List VarDecl) (hndM : (varNames M).Nodup)
    (A B : Factor) (hA : GoodF M A) (hB : GoodF M B) : GoodF M (A.combine B) := by
  have hcons : Consistent A B := consistent_of_registered M hndM A B hA.1 hB.1
  unfold Factor.combine
  apply goodF_ofFun
  · intro p hp
    rcases List.mem_append.mp hp with h | h
    · exact hA.1 p h
    · exact hB.1 p (List.mem_of_mem_filter h)
  · have h1 : varNames (A.vars ++ B.vars.filter (fun p => !(varNames A.vars).contains p.1))
        = varNames A.vars ++
          varNames (B.vars.filter (fun p => !(varNames A.vars).contains p.1)) := by
      simp [varNames]
    rw [h1, List.nodup_append]
    refine ⟨hA.2.1, nodup_filter_varNames B.vars _ hB.2.1, ?_⟩
    intro s hs hs2
    obtain ⟨q, hq, hq1⟩ := List.mem_map.mp hs2
    have hkeep := (List.mem_filter.mp hq).2
    have hnotin : (varNames A.vars).contains q.1 = false := by simpa using hkeep
    exact absurd (by simpa using hq1 ▸ hs) (by simpa using hnotin)
  · intro g hg
    have hgA : validOn A.vars g := fun p hp => hg p (List.mem_append.mpr (Or.inl hp))
    have hgB : validOn B.vars g := validOn_combine_right A B g hcons hg
    exact mul_pos (goodF_valueAt_pos M A hA g hgA) (goodF_valueAt_pos M B hB g hgB)

theorem goodF_reduce (M : List VarDecl) (F : Factor) (hF : GoodF M F)
    (v : String) (i : Nat) (hi : ∀ p ∈ M, p.1 = v → i < p.2) :
    GoodF M (F.reduce v i) := by
  unfold Factor.reduce
  apply goodF_ofFun
  · intro p hp
    exact hF.1 p (List.mem_of_mem_filter hp)
  · exact nodup_filter_varNames F.vars _ hF.2.1
  · intro g hg
    apply goodF_valueAt_pos M F hF
    intro p hp
    by_cases hpv : p.1 = v
    · simp only [updateA, if_pos hpv]
      exact hi p (hF.1 p hp) hpv
    · simp only [updateA, if_neg hpv]
      exact hg p (List.mem_filter.mpr ⟨hp, by simpa [bne_iff_ne]⟩)

theorem goodF_marginalize (M : List VarDecl) (hposM : ∀ p ∈ M, 0 < p.2)
    (F : Factor) (hF : GoodF M F) (v : String) (hv : F.mentions v = true) :
    GoodF M (F.marginalize v) := by
  have hvmem : v ∈ varNames F.vars := by simpa [Factor.mentions] using hv
  obtain ⟨q, hq, hq1⟩ := List.mem_map.mp hvmem
  have hqpair : (v, q.2) ∈ F.vars := by
    have hqe : (v, q.2) = q := Prod.ext hq1.symm rfl
    rw [hqe]
    exact hq
  have hcard : F.cardOf v = q.2 := cardOf_eq F v q.2 hF.2.1 hqpair
  have hqpos : 0 < q.2 := hposM q (hF.1 q hq)
  unfold Factor.marginalize
  apply goodF_ofFun
  · intro p hp
    exact hF.1 p (List.mem_of_mem_filter hp)
  · exact nodup_filter_varNames F.vars _ hF.2.1
  · intro g hg
    rw [hcard]
    apply Finset.sum_pos
    · intro i hi
      apply goodF_valueAt_pos M F hF
      intro p hp
      by_cases hpv : p.1 = v
      · have hpq : p = q := nodup_name_inj F.vars hF.2.1 p q hp hq (hpv.trans hq1.symm)
        simp only [updateA, if_pos hpv]
        rw [hpq]
        exact Finset.mem_range.mp hi
      · simp only [updateA, if_neg hpv]
        exact hg p (List.mem_filter.mpr ⟨hp, by simpa [bne_iff_ne]⟩)
    · exact Finset.nonempty_range_iff.mpr (by omega)

theorem goodF_unit (M : List VarDecl) : GoodF M ⟨[], [1]⟩ := by
  refine ⟨fun p hp => absurd hp (List.not_mem_nil p), by simp [varNames], ?_, ?_⟩
  · simp [prodCards]
  · intro q hq
    simp only [List.mem_singleton] at hq
    rw [hq]
    norm_num

theorem goodF_foldl_combine (M : List VarDecl) (hndM : (varNames M).Nodup)
    (fs : List Factor) (init : Factor) (hinit : GoodF M init)
    (hfs : ∀ F ∈ fs, GoodF M F) : GoodF M (fs.foldl Factor.combine init) := by
  induction fs generalizing init with
  | nil => exact hinit
  | cons G gs ih =>
    rw [List.foldl_cons]
    exact ih (init.combine G)
      (goodF_combine M hndM init G hinit (hfs G (by simp)))
      (fun F hF => hfs F (by simp [hF]))

theorem goodF_foldCombine (M : List VarDecl) (hndM : (varNames M).Nodup)
    (fs : List Factor) (hfs : ∀ F ∈ fs, GoodF M F) : GoodF M (foldCombine fs) := by
  cases fs with
  | nil => exact goodF_unit M
  | cons F gs =>
    exact goodF_foldl_combine M hndM gs F (hfs F (by simp))
      (fun G hG => hfs G (by simp [hG]))

theorem mentions_foldl_combine (fs : List Factor) (init : Factor) (s : String)
    (h : s ∈ varNames init.vars) :
    s ∈ varNames ((fs.foldl Factor.combine init).vars) := by
  induction fs generalizing init with
  | nil => exact h
  | cons G gs ih =>
    rw [List.foldl_cons]
    exact ih _ ((mem_varNames_combine init G s).mpr (Or.inl h))

theorem goodF_elimStep (M : List VarDecl) (hndM : (varNames M).Nodup)
    (hposM : ∀ p ∈ M, 0 < p.2) (factors : List Factor)
    (hall : ∀ F ∈ factors, GoodF M F) (v : String) :
    ∀ F ∈ elimStep factors v, GoodF M F := by
  intro F hF
  rcases hfil : factors.filter (fun G => G.mentions v) with _ | ⟨F0, fs⟩
  · simp only [elimStep, hfil] at hF
    exact hall F hF
  · simp only [elimStep, hfil] at hF
    rcases List.mem_cons.mp hF with h | h
    · subst h
      have hF0mem : F0 ∈ factors := by
        apply List.mem_of_mem_filter (p := fun G => G.mentions v)
        rw [hfil]
        exact List.mem_cons_self F0 fs
      have hgood : GoodF M (fs.foldl Factor.combine F0) := by
        apply goodF_foldl_combine M hndM fs F0 (hall F0 hF0mem)
        intro G hG
        apply hall
        apply List.mem_of_mem_filter (p := fun G => G.mentions v)
        rw [hfil]
        exact List.mem_cons_of_mem F0 hG
      have hF0v : F0.mentions v = true := by
        have : F0 ∈ factors.filter (fun G => G.mentions v) := by
          rw [hfil]
          exact List.mem_cons_self F0 fs
        exact (List.mem_filter.mp this).2
      have hmv : (fs.foldl Factor.combine F0).mentions v = true := by
        have h1 : v ∈ varNames F0.vars := by simpa [Factor.mentions] using hF0v
        have h2 := mentions_foldl_combine fs F0 v h1
        simpa [Factor.mentions] using h2
      exact goodF_marginalize M hposM _ hgood v hmv
    · exact hall F (List.mem_of_mem_filter h)

theorem goodF_elimAll (M : List VarDecl) (hndM : (varNames M).Nodup)
    (hposM : ∀ p ∈ M, 0 < p.2) :
    ∀ (fuel : Nat) (factors : List Factor) (elims : List VarDecl),
      (∀ F ∈ factors, GoodF M F) → ∀ F ∈ elimAll fuel factors elims, GoodF M F := by
  intro fuel
  induction fuel with
  | zero =>
    intro factors elims h F hF
    simp only [elimAll] at hF
    exact h F hF
  | succ k ih =>
    intro factors elims h F hF
    cases elims with
    | nil =>
      simp only [elimAll] at hF
      exact h F hF
    | cons e es =>
      simp only [elimAll] at hF
      exact ih _ _ (goodF_elimStep M hndM hposM factors h _) F hF

theorem goodF_reduceWith (m : BNModel) (hok : modelOK m) :
    ∀ (ev : Evidence) (F : Factor), evidenceValid m ev = true →
      GoodF m.vars F → GoodF m.vars (reduceWith m ev F) := by
  intro ev
  induction ev with
  | nil =>
    intro F _ hF
    exact hF
  | cons e es ih =>
    intro F hev hF
    have hev2 : ((varNames m.vars).contains e.1 &&
        (stateLabels m e.1).contains e.2) = true ∧ evidenceValid m es = true := by
      rw [evidenceValid, List.all_cons, Bool.and_eq_true] at hev
      exact hev
    rw [reduceWith, List.foldl_cons]
    apply ih _ hev2.2
    by_cases hm : F.mentions e.1 = true
    · rw [if_pos hm]
      apply goodF_reduce m.vars F hF e.1
      intro p hp hpe
      have hlabel : (stateLabels m p.1).length = p.2 := hok.2.2.1 p hp
      have hcontains : (stateLabels m e.1).contains e.2 = true := by
        have h3 := hev2.1
        rw [Bool.and_eq_true] at h3
        exact h3.2
      have hmem : e.2 ∈ stateLabels m e.1 := by simpa using hcontains
      calc stateIndex m e.1 e.2 < (stateLabels m e.1).length :=
            List.indexOf_lt_length.mpr hmem
        _ = (stateLabels m p.1).length := by rw [hpe]
        _ = p.2 := hlabel
    · rw [if_neg hm]
      exact hF

theorem prodCards_pos (vs : List VarDecl) (h : ∀ p ∈ vs, 0 < p.2) :
    0 < prodCards vs := by
  induction vs with
  | nil => simp [prodCards]
  | cons p rest ih =>
    have h1 : prodCards (p :: rest) = p.2 * prodCards rest := by
      simp [prodCards]
    rw [h1]
    exact Nat.mul_pos (h p (by simp)) (ih (fun q hq => h q (by simp [hq])))

theorem list_sum_pos_of_pos (l : List ℚ) (hne : l ≠ []) (hpos : ∀ q ∈ l, 0 < q) :
    0 < l.sum := by
  cases l with
  | nil => exact absurd rfl hne
  | cons x xs =>
    rw [List.sum_cons]
    have hx : 0 < x := hpos x (by simp)
    have hxs : 0 ≤ xs.sum :=
      List.sum_nonneg (fun q hq => le_of_lt (hpos q (by simp [hq])))
    linarith

theorem query_never_conflicting_of_modelOK (m : BNModel) (hok : modelOK m)
    (qs : List String) (ev : Evidence) :
    query m qs ev ≠ .error .ConflictingEvidence := by
  unfold query
  by_cases h1 : qs.isEmpty
  · rw [if_pos h1]
    simp
  · rw [if_neg h1]
    by_cases h2 : evidenceValid m ev = true
    · rw [if_neg (by simp [h2])]
      have hR : GoodF m.vars (runElimination m qs ev) := by
        unfold runElimination
        apply goodF_foldCombine m.vars hok.1
        apply goodF_elimAll m.vars hok.1 hok.2.1
        intro F hF
        obtain ⟨G, hG, rfl⟩ := List.mem_map.mp hF
        exact goodF_reduceWith m hok ev G h2 (hok.2.2.2 G hG)
      have hsum : 0 < (runElimination m qs ev).table.sum := by
        apply list_sum_pos_of_pos
        · intro hemp
          have hlen := hR.2.2.1
          rw [hemp] at hlen
          have hpp := prodCards_pos (runElimination m qs ev).vars
            (fun p hp => hok.2.1 p (hR.1 p hp))
          simp at hlen
          omega
        · exact hR.2.2.2
      rw [if_neg hsum.ne']
      simp
    · have h2f : evidenceValid m ev = false := by
        simpa using h2
      rw [if_pos (by simp [h2f])]
      simp

/-- C10: every entry of all eight CPT tables in BN_Sed_model.py is strictly
positive, so the joint distribution is strictly positive at every valid joint
assignment; consequently, for every query and evidence assignment on this
model, the unnormalized posterior has a strictly positive sum and the zero-sum
`ConflictingEvidence` branch of normalization is unreachable. -/
theorem positive_cpts_no_conflicting_evidence :
    (∀ q ∈ cpd_contaminant.table, 0 < q) ∧
    (∀ q ∈ cpd_toc.table, 0 < q) ∧
    (∀ q ∈ cpd_grain_size.table, 0 < q) ∧
    (∀ q ∈ cpd_benthic_community.table, 0 < q) ∧
    (∀ q ∈ cpd_bioavailability.table, 0 < q) ∧
    (∀ q ∈ cpd_eco_effect.table, 0 < q) ∧
    (∀ q ∈ cpd_mortality.table, 0 < q) ∧
    (∀ q ∈ cpd_richness.table, 0 < q) ∧
    (∀ g : Assign, validOn bnModel.vars g → 0 < jointValue bnModel g) ∧
    ∀ (qs : List String) (ev : Evidence),
      query bnModel qs ev ≠ .error .ConflictingEvidence := by
  have hok : modelOK bnModel := by decide
  refine ⟨by decide, by decide, by decide, by decide, by decide, by decide,
    by decide, by decide, ?_, ?_⟩
  · intro g hg
    unfold jointValue
    apply List.prod_pos
    intro x hx
    obtain ⟨F, hF, rfl⟩ := List.mem_map.mp hx
    have hFok := hok.2.2.2 F hF
    exact goodF_valueAt_pos bnModel.vars F hFok g
      (validOn_mono bnModel.vars F.vars g hFok.1 hg)
  · intro qs ev
    exact query_never_conflicting_of_modelOK bnModel hok qs ev

/-- Witness for C10 at the all-zero state assignment. -/
theorem positive_cpts_no_conflicting_evidence_witness :
    validOn bnModel.vars (fun _ => 0) ∧ 0 < jointValue bnModel (fun _ => 0) :=
  ⟨by decide, positive_cpts_no_conflicting_evidence.2.2.2.2.2.2.2.2.1
    (fun _ => 0) (by decide)⟩

theorem brute_check_contaminant :
    (query bnModel ["Contaminant_Conc"] []).toOption =
      some (bruteMarginal bnModel "Contaminant_Conc") := by
  decide

theorem brute_check_toc :
    (query bnModel ["TOC"] []).toOption = some (bruteMarginal bnModel "TOC") := by
  decide

theorem brute_check_grain_size :
    (query bnModel ["Grain_Size"] []).toOption =
      some (bruteMarginal bnModel "Grain_Size") := by
  decide

theorem brute_check_benthic :
    (query bnModel ["Benthic_Community_Type"] []).toOption =
      some (bruteMarginal bnModel "Benthic_Community_Type") := by
  decide

theorem brute_check_bioavailability :
    (query bnModel ["Bioavailability"] []).toOption =
      some (bruteMarginal bnModel "Bioavailability") := by
  decide

theorem brute_check_eco_effect :
    (query bnModel ["Ecological_Effect"] []).toOption =
      some (bruteMarginal bnModel "Ecological_Effect") := by
  decide

theorem brute_check_mortality :
    (query bnModel ["Mortality_Growth"] []).toOption =
      some (bruteMarginal bnModel "Mortality_Growth") := by
  decide

theorem brute_check_richness :
    (query bnModel ["Community_Richness"] []).toOption =
      some (bruteMarginal bnModel "Community_Richness") := by
  decide

/-- C1: for the model of BN_Sed_model.py, a query with empty evidence and a
single query variable returns exactly that variable's prior marginal computed
by direct summation of the full joint distribution (the product of all eight
CPTs) over all other variables — variable elimination refines the brute-force
reference definition for every single-variable query with no evidence. -/
theorem elimination_matches_brute_force :
    ∀ v ∈ varNames bnModel.vars,
      (query bnModel [v] []).toOption = some (bruteMarginal bnModel v) := by
  intro v hv
  have hv2 : v = "Contaminant_Conc" ∨ v = "TOC" ∨ v = "Grain_Size" ∨
      v = "Benthic_Community_Type" ∨ v = "Bioavailability" ∨
      v = "Ecological_Effect" ∨ v = "Mortality_Growth" ∨
      v = "Community_Richness" := by
    simpa [varNames, bnModel] using hv
  rcases hv2 with rfl | rfl | rfl | rfl | rfl | rfl | rfl | rfl
  · exact brute_check_contaminant
  · exact brute_check_toc
  · exact brute_check_grain_size
  · exact brute_check_benthic
  · exact brute_check_bioavailability
  · exact brute_check_eco_effect
  · exact brute_check_mortality
  · exact brute_check_richness

/-- Witness for C1 at the Ecological_Effect variable. -/
theorem elimination_matches_brute_force_witness :
    "Ecological_Effect" ∈ varNames bnModel.vars ∧
    (query bnModel ["Ecological_Effect"] []).toOption =
      some (bruteMarginal bnModel "Ecological_Effect") :=
  ⟨by decide, elimination_matches_brute_force "Ecological_Effect" (by decide)⟩

end BNSed
